import Mathlib

set_option maxRecDepth 262144

/-!
# Verification of the corpus-construction pipeline

Shallow embedding of the preprocessing and cleaning code of the repository
(`src/preprocess/make_corpus.py` and `tools/clean_corpus.py`), together with
theorems settling the specification claims about chunking, normalization,
identifier determinism, extension gating, notebook extraction and the
cleaning counters.

Strings are modelled as `List Char` (Python strings are sequences of code
points).  File input/output is replaced by in-memory lists of documents and
lines; the JSON decoder and the statistical language classifier (external
libraries) are passed as explicit parameters.  Ratios computed with Python
floats are modelled with `ℚ`.
-/

/-- The whitespace set of Python's `str.strip()` / `str.isspace()`. -/
def isPyWs (c : Char) : Bool :=
  let n := c.toNat
  (9 ≤ n && n ≤ 13) || (28 ≤ n && n ≤ 32) || n == 133 || n == 160 || n == 5760 ||
  (8192 ≤ n && n ≤ 8202) || n == 8232 || n == 8233 || n == 8239 || n == 8287 || n == 12288

/-- Python `s.strip()`: drop leading and trailing whitespace. -/
def pyStrip (l : List Char) : List Char :=
  ((l.dropWhile isPyWs).reverse.dropWhile isPyWs).reverse

/-- Horizontal whitespace of the regex class `[ \t\f\v]` in `_normalize_text`. -/
def isHws (c : Char) : Bool :=
  c == ' ' || c == '\t' || c == '\x0c' || c == '\x0b'

/-- Python `s.replace "\r\n" "\n"`: left-to-right, non-overlapping. -/
def replaceCRLF : List Char → List Char
  | [] => []
  | [c] => [c]
  | c1 :: c2 :: rest =>
    if c1 = '\r' ∧ c2 = '\n' then '\n' :: replaceCRLF rest
    else c1 :: replaceCRLF (c2 :: rest)

/-- Python `s.replace "\r" "\n"`. -/
def replaceCR (l : List Char) : List Char :=
  l.map (fun c => if c == '\r' then '\n' else c)

/-- Does the list start with a newline? -/
def startsNL : List Char → Bool
  | c :: _ => c == '\n'
  | [] => false

/-- `re.sub` of `[ \t\f\v]+\n` by `\n`: delete every run of horizontal
whitespace that immediately precedes a newline. -/
def dropHwsNl : List Char → List Char
  | [] => []
  | c :: rest =>
    let r := dropHwsNl rest
    if isHws c && startsNL r then r else c :: r

/-- Worker for `re.sub` of `\n\x7b3,\x7d` by `"\n\n"`: `run` counts the newlines already
emitted for the current run; once two have been emitted the rest of the run
is dropped. -/
def collapseNLAux : Nat → List Char → List Char
  | _, [] => []
  | run, c :: rest =>
    if c = '\n' then
      if 2 ≤ run then collapseNLAux run rest
      else '\n' :: collapseNLAux (run + 1) rest
    else c :: collapseNLAux 0 rest

/-- `re.sub` of `\n\x7b3,\x7d` by `"\n\n"`: every maximal run of `n ≥ 3` newlines
becomes exactly two newlines. -/
def collapseNL (l : List Char) : List Char := collapseNLAux 0 l

/-- `_normalize_text` from `src/preprocess/make_corpus.py`: unify line
endings, strip horizontal whitespace before newlines, collapse newline runs,
strip the ends.  (The `isinstance` guard is vacuous here: the input is
always a string.) -/
def _normalize_text (s : List Char) : List Char :=
  pyStrip (collapseNL (dropHwsNl (replaceCR (replaceCRLF s))))

example : _normalize_text (("a\r\nb\rc").data) = ("a\nb\nc").data := by decide
example : _normalize_text (("a \t\nb").data) = ("a\nb").data := by decide
example : _normalize_text (("a\n\n\n\n\nb").data) = ("a\n\nb").data := by decide
example : _normalize_text (("a\n\nb").data) = ("a\n\nb").data := by decide
example : _normalize_text (("  hi  ").data) = ("hi").data := by decide
example : _normalize_text (("a\n\n\nb").data) = ("a\n\nb").data := by decide

/-! ## Shape predicates used by the normalization claims -/

/-- Does the list start with two newlines? -/
def startsTwoNL : List Char → Bool
  | c1 :: c2 :: _ => c1 == '\n' && c2 == '\n'
  | _ => false

/-- No horizontal-whitespace character immediately precedes a newline. -/
def noHwsBeforeNL : List Char → Bool
  | c1 :: c2 :: rest => (!(isHws c1 && c2 == '\n')) && noHwsBeforeNL (c2 :: rest)
  | _ => true

/-- Does the list contain three consecutive newlines anywhere? -/
def hasTripleNL : List Char → Bool
  | [] => false
  | c :: rest => (c == '\n' && startsTwoNL rest) || hasTripleNL rest

theorem startsNL_cons (c : Char) (l : List Char) : startsNL (c :: l) = (c == '\n') := rfl

theorem startsTwoNL_cons (c : Char) (l : List Char) :
    startsTwoNL (c :: l) = (c == '\n' && startsNL l) := by
  cases l <;> simp [startsTwoNL, startsNL]

theorem startsTwoNL_append (l1 l2 : List Char) (h : startsTwoNL l1 = true) :
    startsTwoNL (l1 ++ l2) = true := by
  match l1 with
  | [] => simp [startsTwoNL] at h
  | [c] => simp [startsTwoNL] at h
  | c1 :: c2 :: r => simpa [startsTwoNL] using h

theorem noHwsBeforeNL_tail (c : Char) (l : List Char)
    (h : noHwsBeforeNL (c :: l) = true) : noHwsBeforeNL l = true := by
  cases l with
  | nil => rfl
  | cons d r => simp [noHwsBeforeNL] at h; exact h.2

theorem noHwsBeforeNL_cons (c : Char) (l : List Char)
    (h : noHwsBeforeNL l = true)
    (hd : ∀ d, l.head? = some d → (isHws c && (d == '\n')) = false) :
    noHwsBeforeNL (c :: l) = true := by
  cases l with
  | nil => rfl
  | cons d r =>
    have := hd d rfl
    simp only [noHwsBeforeNL, this, Bool.not_false, Bool.true_and]
    exact h

theorem startsNL_head (l : List Char) (d : Char)
    (h : startsNL l = false) (hd : l.head? = some d) : (d == '\n') = false := by
  cases l with
  | nil => simp at hd
  | cons c r =>
    simp only [List.head?_cons, Option.some_inj] at hd
    subst hd
    simpa [startsNL] using h

/-! ## Properties of `dropHwsNl` -/

theorem dropHwsNl_noHws (l : List Char) : noHwsBeforeNL (dropHwsNl l) = true := by
  induction l with
  | nil => rfl
  | cons c rest ih =>
    simp only [dropHwsNl]
    by_cases h : (isHws c && startsNL (dropHwsNl rest)) = true
    · rw [if_pos h]; exact ih
    · rw [if_neg h]
      refine noHwsBeforeNL_cons _ _ ih ?_
      intro d hd
      cases hc : isHws c with
      | false => simp [hc]
      | true =>
        have hs : startsNL (dropHwsNl rest) = false := by
          cases hs : startsNL (dropHwsNl rest) with
          | false => rfl
          | true => exact absurd (by rw [hc, hs]; rfl) h
        simp [startsNL_head _ _ hs hd]

theorem dropHwsNl_eq_self (l : List Char) (h : noHwsBeforeNL l = true) :
    dropHwsNl l = l := by
  induction l with
  | nil => rfl
  | cons c rest ih =>
    have hrest := noHwsBeforeNL_tail _ _ h
    simp only [dropHwsNl, ih hrest]
    cases hcond : (isHws c && startsNL rest) with
    | false => rw [if_neg (by simp [hcond])]
    | true =>
      exfalso
      cases rest with
      | nil => simp [startsNL] at hcond
      | cons d r =>
        simp only [Bool.and_eq_true, startsNL_cons] at hcond
        simp [noHwsBeforeNL, hcond.1, hcond.2] at h

theorem dropHwsNl_sublist (l : List Char) : List.Sublist (dropHwsNl l) l := by
  induction l with
  | nil => exact List.Sublist.refl _
  | cons c rest ih =>
    simp only [dropHwsNl]
    by_cases h : (isHws c && startsNL (dropHwsNl rest)) = true
    · rw [if_pos h]; exact ih.cons c
    · rw [if_neg h]; exact ih.cons₂ c

/-! ## Properties of `collapseNLAux` -/

theorem collapseNLAux_noTriple (l : List Char) : ∀ run : Nat,
    hasTripleNL (collapseNLAux run l) = false
    ∧ (1 ≤ run → startsTwoNL (collapseNLAux run l) = false)
    ∧ (2 ≤ run → startsNL (collapseNLAux run l) = false) := by
  induction l with
  | nil => exact fun run => ⟨rfl, fun _ => rfl, fun _ => rfl⟩
  | cons c rest ih =>
    intro run
    by_cases hc : c = '\n'
    · subst hc
      by_cases hrun : 2 ≤ run
      · simp only [collapseNLAux, if_pos rfl, if_pos hrun]
        exact ih run
      · simp only [collapseNLAux, if_pos rfl, if_neg hrun]
        obtain ⟨h1, h2, h3⟩ := ih (run + 1)
        refine ⟨?_, ?_, fun h => absurd h hrun⟩
        · have h2' : startsTwoNL (collapseNLAux (run + 1) rest) = false := h2 (by omega)
          simp [hasTripleNL, h2', h1]
        · intro hr
          have h3' : startsNL (collapseNLAux (run + 1) rest) = false := h3 (by omega)
          simp [startsTwoNL_cons, h3']
    · simp only [collapseNLAux, if_neg hc]
      obtain ⟨h1, _, _⟩ := ih 0
      have hcb : (c == '\n') = false := by simpa using hc
      refine ⟨?_, fun _ => ?_, fun _ => ?_⟩
      · simp [hasTripleNL, hcb, h1]
      · simp [startsTwoNL_cons, hcb]
      · simp [startsNL_cons, hcb]

theorem collapseNLAux_eq_self (l : List Char) : ∀ run : Nat,
    hasTripleNL l = false → (1 ≤ run → startsTwoNL l = false) →
    (2 ≤ run → startsNL l = false) → collapseNLAux run l = l := by
  induction l with
  | nil => intro run _ _ _; rfl
  | cons c rest ih =>
    intro run h1 h2 h3
    have htriple : hasTripleNL rest = false := by
      simp only [hasTripleNL, Bool.or_eq_false_iff] at h1; exact h1.2
    by_cases hc : c = '\n'
    · subst hc
      have hrun : ¬ 2 ≤ run := by
        intro hr
        have := h3 hr
        simp [startsNL_cons] at this
      have hstw : startsTwoNL rest = false := by
        rcases Nat.lt_or_ge run 1 with hr | hr
        · simp only [hasTripleNL, Bool.or_eq_false_iff, Bool.and_eq_false_iff] at h1
          rcases h1.1 with h | h
          · simp at h
          · exact h
        · have hsn : startsNL rest = false := by
            have := h2 hr
            rw [startsTwoNL_cons] at this
            simpa using this
          cases rest with
          | nil => rfl
          | cons d r =>
            rw [startsNL_cons] at hsn
            rw [startsTwoNL_cons, hsn]
            rfl
      have hsn1 : 2 ≤ run + 1 → startsNL rest = false := by
        intro hge
        have := h2 (by omega)
        rw [startsTwoNL_cons] at this
        simpa using this
      have hrest := ih (run + 1) htriple (fun _ => hstw) hsn1
      simp only [collapseNLAux, if_pos rfl, if_neg hrun, hrest]
      simp
    · simp only [collapseNLAux, if_neg hc]
      rw [ih 0 htriple (by omega) (by omega)]

theorem collapseNLAux_sublist (l : List Char) :
    ∀ run : Nat, List.Sublist (collapseNLAux run l) l := by
  induction l with
  | nil => intro run; exact List.Sublist.refl _
  | cons c rest ih =>
    intro run
    by_cases hc : c = '\n'
    · subst hc
      by_cases hrun : 2 ≤ run
      · simp only [collapseNLAux, if_pos rfl, if_pos hrun]
        exact (ih run).cons _
      · simp only [collapseNLAux, if_pos rfl, if_neg hrun]
        exact (ih (run + 1)).cons₂ _
    · simp only [collapseNLAux, if_neg hc]
      exact (ih 0).cons₂ _

theorem collapseNLAux_noHws (l : List Char) : ∀ run : Nat,
    noHwsBeforeNL l = true → noHwsBeforeNL (collapseNLAux run l) = true := by
  induction l with
  | nil => intro run _; rfl
  | cons c rest ih =>
    intro run h
    have hrest := noHwsBeforeNL_tail _ _ h
    by_cases hc : c = '\n'
    · subst hc
      by_cases hrun : 2 ≤ run
      · simp only [collapseNLAux, if_pos rfl, if_pos hrun]
        exact ih run hrest
      · simp only [collapseNLAux, if_pos rfl, if_neg hrun]
        refine noHwsBeforeNL_cons _ _ (ih (run + 1) hrest) ?_
        intro d _
        simp [isHws]
    · simp only [collapseNLAux, if_neg hc]
      refine noHwsBeforeNL_cons _ _ (ih 0 hrest) ?_
      intro d hd
      cases hw : isHws c with
      | false => simp
      | true =>
        cases rest with
        | nil => simp [collapseNLAux] at hd
        | cons e r =>
          have he : (e == '\n') = false := by
            cases hee : (e == '\n') with
            | false => rfl
            | true => simp [noHwsBeforeNL, hw, hee] at h
          have hne : ¬ e = '\n' := by simpa using he
          simp only [collapseNLAux, if_neg hne, List.head?_cons, Option.some_inj] at hd
          subst hd
          simp [he]

/-! ## Properties of `pyStrip` -/

theorem head_append_of_head (x w : List Char) (c : Char)
    (h : x.head? = some c) : (x ++ w).head? = some c := by
  cases x with
  | nil => simp at h
  | cons a t => simpa using h

theorem dropWhile_head_false (p : Char → Bool) (l : List Char) :
    ∀ c, (l.dropWhile p).head? = some c → p c = false := by
  induction l with
  | nil => intro c h; simp [List.dropWhile] at h
  | cons a t ih =>
    intro c h
    by_cases hp : p a
    · rw [List.dropWhile_cons_of_pos hp] at h
      exact ih c h
    · rw [List.dropWhile_cons_of_neg hp] at h
      simp only [List.head?_cons, Option.some_inj] at h
      subst h
      simpa using hp

theorem dropWhile_eq_self_of_head (p : Char → Bool) (l : List Char)
    (h : ∀ c, l.head? = some c → p c = false) : l.dropWhile p = l := by
  cases l with
  | nil => rfl
  | cons a t => rw [List.dropWhile_cons_of_neg (by simpa using h a rfl)]

theorem dropWhile_idem (p : Char → Bool) (l : List Char) :
    (l.dropWhile p).dropWhile p = l.dropWhile p :=
  dropWhile_eq_self_of_head p _ (dropWhile_head_false p l)

theorem dropWhile_eq_strip_append (l : List Char) :
    ∃ w, l.dropWhile isPyWs = pyStrip l ++ w := by
  refine ⟨((l.dropWhile isPyWs).reverse.takeWhile isPyWs).reverse, ?_⟩
  have h := List.takeWhile_append_dropWhile (p := isPyWs) (l := (l.dropWhile isPyWs).reverse)
  have h2 := congrArg List.reverse h
  rw [List.reverse_append, List.reverse_reverse] at h2
  rw [pyStrip]
  exact h2.symm

theorem pyStrip_decomp (l : List Char) : ∃ u v, l = u ++ (pyStrip l ++ v) := by
  obtain ⟨w, hw⟩ := dropWhile_eq_strip_append l
  refine ⟨l.takeWhile isPyWs, w, ?_⟩
  conv_lhs => rw [← List.takeWhile_append_dropWhile (p := isPyWs) (l := l)]
  rw [hw]

theorem pyStrip_sublist (l : List Char) : List.Sublist (pyStrip l) l := by
  obtain ⟨u, v, h⟩ := pyStrip_decomp l
  have h1 : List.Sublist (pyStrip l) (pyStrip l ++ v) := List.sublist_append_left _ _
  have h2 : List.Sublist (pyStrip l ++ v) (u ++ (pyStrip l ++ v)) := List.sublist_append_right _ _
  have := h1.trans h2
  rwa [← h] at this

theorem pyStrip_idem (l : List Char) : pyStrip (pyStrip l) = pyStrip l := by
  have hrev : (pyStrip l).reverse = (l.dropWhile isPyWs).reverse.dropWhile isPyWs := by
    rw [pyStrip, List.reverse_reverse]
  have hL : (pyStrip l).dropWhile isPyWs = pyStrip l := by
    apply dropWhile_eq_self_of_head
    intro c hc
    obtain ⟨w, hw⟩ := dropWhile_eq_strip_append l
    have : (l.dropWhile isPyWs).head? = some c := by
      rw [hw]; exact head_append_of_head _ _ _ hc
    exact dropWhile_head_false isPyWs l c this
  rw [pyStrip, hL, hrev, dropWhile_idem, ← hrev, List.reverse_reverse]

theorem noHws_append_right (l1 l2 : List Char)
    (h : noHwsBeforeNL (l1 ++ l2) = true) : noHwsBeforeNL l2 = true := by
  induction l1 with
  | nil => exact h
  | cons c t ih =>
    exact ih (noHwsBeforeNL_tail c _ (by simpa using h))

theorem noHws_append_left (l1 l2 : List Char)
    (h : noHwsBeforeNL (l1 ++ l2) = true) : noHwsBeforeNL l1 = true := by
  induction l1 with
  | nil => rfl
  | cons c t ih =>
    cases t with
    | nil => rfl
    | cons d r =>
      simp only [List.cons_append, noHwsBeforeNL, Bool.and_eq_true] at h
      have := ih (by simpa using h.2)
      simp only [noHwsBeforeNL, Bool.and_eq_true]
      exact ⟨h.1, this⟩

theorem pyStrip_noHws (l : List Char)
    (h : noHwsBeforeNL l = true) : noHwsBeforeNL (pyStrip l) = true := by
  obtain ⟨u, v, hd⟩ := pyStrip_decomp l
  rw [hd] at h
  exact noHws_append_left _ _ (noHws_append_right _ _ h)

theorem triple_append_right (l1 l2 : List Char)
    (h : hasTripleNL (l1 ++ l2) = false) : hasTripleNL l2 = false := by
  induction l1 with
  | nil => exact h
  | cons c t ih =>
    simp only [List.cons_append, hasTripleNL, Bool.or_eq_false_iff] at h
    exact ih h.2

theorem triple_append_left (l1 l2 : List Char)
    (h : hasTripleNL (l1 ++ l2) = false) : hasTripleNL l1 = false := by
  induction l1 with
  | nil => rfl
  | cons c t ih =>
    simp only [List.cons_append, hasTripleNL, Bool.or_eq_false_iff] at h
    have ht := ih h.2
    simp only [hasTripleNL, Bool.or_eq_false_iff]
    refine ⟨?_, ht⟩
    cases hstw : startsTwoNL t with
    | false => simp [hstw]
    | true =>
      have h1 := h.1
      have hst2 := startsTwoNL_append t l2 hstw
      simp only [List.append_eq] at h1
      rw [hst2] at h1
      simpa using h1

theorem pyStrip_noTriple (l : List Char)
    (h : hasTripleNL l = false) : hasTripleNL (pyStrip l) = false := by
  obtain ⟨u, v, hd⟩ := pyStrip_decomp l
  rw [hd] at h
  exact triple_append_left _ _ (triple_append_right _ _ h)

/-! ## Properties of the `replace` stages -/

theorem replaceCR_no_cr (l : List Char) : ∀ c ∈ replaceCR l, c ≠ '\r' := by
  intro c hc
  rw [replaceCR] at hc
  obtain ⟨a, _, ha⟩ := List.mem_map.mp hc
  by_cases h : a = '\r'
  · subst h; simp at ha; subst ha; decide
  · rw [if_neg (by simpa using h)] at ha
    subst ha; exact h

theorem replaceCR_eq_self (l : List Char) (h : ∀ c ∈ l, c ≠ '\r') :
    replaceCR l = l := by
  rw [replaceCR]
  induction l with
  | nil => rfl
  | cons c t ih =>
    simp only [List.map_cons]
    rw [if_neg (by simpa using h c (by simp)), ih (fun d hd => h d (by simp [hd]))]

theorem replaceCRLF_eq_self (l : List Char) (h : ∀ c ∈ l, c ≠ '\r') :
    replaceCRLF l = l := by
  induction l with
  | nil => rfl
  | cons c t ih =>
    cases t with
    | nil => rfl
    | cons d r =>
      have hc : c ≠ '\r' := h c (by simp)
      simp only [replaceCRLF]
      rw [if_neg (by intro hh; exact hc hh.1)]
      rw [ih (fun e he => h e (by simp [he]))]

/-! ## Established shape of `_normalize_text` output -/

theorem norm_no_cr (s : List Char) : ∀ c ∈ _normalize_text s, c ≠ '\r' := by
  intro c hc
  rw [_normalize_text] at hc
  have h1 := (pyStrip_sublist _).subset hc
  have h2 := (collapseNLAux_sublist _ 0).subset h1
  have h3 := (dropHwsNl_sublist _).subset h2
  exact replaceCR_no_cr _ c h3

theorem norm_noHws (s : List Char) : noHwsBeforeNL (_normalize_text s) = true :=
  pyStrip_noHws _ (collapseNLAux_noHws _ 0 (dropHwsNl_noHws _))

theorem norm_noTriple (s : List Char) : hasTripleNL (_normalize_text s) = false :=
  pyStrip_noTriple _ (collapseNLAux_noTriple _ 0).1

theorem norm_stripped (s : List Char) : pyStrip (_normalize_text s) = _normalize_text s :=
  pyStrip_idem _

/-! ## Claims C3 and C10 -/

/-- C3 (counterexample): the claim states that a run of exactly two
consecutive blank lines is left unchanged by `_normalize_text`.  The input
`"a\n\n\nb"` contains exactly two consecutive blank lines, yet the code
collapses it to `"a\n\nb"` (one blank line), so the text is changed. -/
theorem normalize_two_blank_lines_counterexample :
    _normalize_text (("a\n\n\nb").data) = ("a\n\nb").data
    ∧ _normalize_text (("a\n\n\nb").data) ≠ ("a\n\n\nb").data := by
  constructor
  · decide
  · decide

/-- C3 (amended): `_normalize_text` leaves no carriage return in its output,
leaves no horizontal whitespace immediately before a newline, collapses runs
of two or more consecutive blank lines down to exactly one blank line (no
three consecutive newlines remain; a single blank line — two newlines — is
preserved), and trims leading/trailing whitespace (its output is a fixed
point of stripping).  Concrete instances witness each facet, including the
preservation of a single blank line. -/
theorem normalize_whitespace_amended :
    (∀ s : List Char,
        (∀ c ∈ _normalize_text s, c ≠ '\r')
        ∧ noHwsBeforeNL (_normalize_text s) = true
        ∧ hasTripleNL (_normalize_text s) = false
        ∧ pyStrip (_normalize_text s) = _normalize_text s)
    ∧ _normalize_text (("a\r\nb\rc").data) = ("a\nb\nc").data
    ∧ _normalize_text (("a \t\nb").data) = ("a\nb").data
    ∧ _normalize_text (("a\n\n\n\n\nb").data) = ("a\n\nb").data
    ∧ _normalize_text (("a\n\nb").data) = ("a\n\nb").data
    ∧ _normalize_text (("  hi\t ").data) = ("hi").data := by
  refine ⟨fun s => ⟨norm_no_cr s, norm_noHws s, norm_noTriple s, norm_stripped s⟩,
    ?_, ?_, ?_, ?_, ?_⟩ <;> decide

/-- C10: `_normalize_text` is idempotent — a second pass finds no carriage
returns, no horizontal whitespace before newlines, no runs of three or more
newlines, and nothing to strip, so it changes nothing. -/
theorem normalize_idempotent (s : List Char) :
    _normalize_text (_normalize_text s) = _normalize_text s := by
  have h1 := norm_no_cr s
  conv_lhs => rw [_normalize_text]
  rw [replaceCRLF_eq_self _ h1]
  rw [replaceCR_eq_self _ h1]
  rw [dropHwsNl_eq_self _ (norm_noHws s)]
  rw [show collapseNL (_normalize_text s) = _normalize_text s from
    collapseNLAux_eq_self _ 0 (norm_noTriple s) (by omega) (by omega)]
  exact norm_stripped s

/-! ## Chunking (`_chunk` from `src/preprocess/make_corpus.py`) -/

/-- The `while i < len(text)` loop of `_chunk`: emit the slice
`text[i : i+size]` and advance by `step = sp + 1` (the step is passed as its
predecessor `sp`, so the advance is positive by construction).  `fuel` is a
structural bound on the number of iterations; the loop exits on its own as
soon as `i` reaches the length, and `chunkLoop_eq` below shows any
`fuel ≥ t.length - i` yields the full run of the loop. -/
def chunkLoop : Nat → List Char → Nat → Nat → Nat → List (List Char)
  | 0, _, _, _, _ => []
  | fuel + 1, t, size, sp, i =>
    if i < t.length then ((t.drop i).take size) :: chunkLoop fuel t size sp (i + sp + 1)
    else []

/-- `_chunk` from `src/preprocess/make_corpus.py`: strip, return `[]` on
empty, the whole text for non-positive size, otherwise windows of `size`
characters whose starts advance by `max (size - overlap) 1`. -/
def _chunk (text : List Char) (size overlap : Int) : List (List Char) :=
  let t := pyStrip text
  if t.isEmpty then []
  else if size ≤ 0 then [t]
  else chunkLoop (t.length + 1) t size.toNat ((max (size - overlap) 1).toNat - 1) 0

example : _chunk (("abcdef").data) 3 1 = [("abc").data, ("cde").data, ("ef").data] := by decide
example : _chunk (("  ab ").data) (-1) 5 = [("ab").data] := by decide
example : _chunk (("abcd").data) 2 5 = [("ab").data, ("bc").data, ("cd").data, ("d").data] := by
  decide
example : _chunk (("   ").data) 3 1 = [] := by decide

theorem chunkLoop_eq (t : List Char) (size sp : Nat) :
    ∀ (fuel i : Nat), t.length - i ≤ fuel →
      chunkLoop fuel t size sp i =
        (List.range ((t.length - i + sp) / (sp + 1))).map
          (fun j => (t.drop (i + j * (sp + 1))).take size) := by
  intro fuel
  induction fuel with
  | zero =>
    intro i h
    have : t.length - i = 0 := by omega
    rw [chunkLoop, this, Nat.zero_add, Nat.div_eq_of_lt (by omega), List.range_zero,
      List.map_nil]
  | succ n ih =>
    intro i h
    by_cases hi : i < t.length
    · rw [chunkLoop, if_pos hi]
      rw [ih (i + sp + 1) (by omega)]
      have hk : (t.length - i + sp) / (sp + 1)
          = (t.length - (i + sp + 1) + sp) / (sp + 1) + 1 := by
        rcases le_or_lt (i + sp + 1) t.length with hc | hc
        · have e1 : t.length - i + sp = (t.length - (i + sp + 1) + sp) + (sp + 1) := by omega
          rw [e1, Nat.add_div_right _ (Nat.succ_pos sp)]
        · have e1 : t.length - i + sp = (t.length - i - 1) + (sp + 1) := by omega
          have e2 : t.length - (i + sp + 1) + sp = sp := by omega
          rw [e1, Nat.add_div_right _ (Nat.succ_pos sp), e2,
            Nat.div_eq_of_lt (by omega), Nat.div_eq_of_lt (by omega)]
      rw [hk, List.range_succ_eq_map, List.map_cons]
      congr 1
      · simp
      · rw [List.map_map]
        apply List.map_congr_left
        intro j _
        simp only [Function.comp_apply, Nat.succ_eq_add_one]
        congr 2
        ring
    · rw [chunkLoop, if_neg hi]
      have : t.length - i = 0 := by omega
      rw [this, Nat.zero_add, Nat.div_eq_of_lt (by omega), List.range_zero, List.map_nil]

theorem pyStrip_isEmpty_false (l : List Char) (h : pyStrip l ≠ []) :
    (pyStrip l).isEmpty = false := by
  cases hh : pyStrip l with
  | nil => exact absurd hh h
  | cons a t => rfl

/-- General form of `_chunk` for positive size: windows of `size.toNat`
characters whose starts advance by `step = (max (size - overlap) 1).toNat`. -/
theorem chunk_eq_range_map (text : List Char) (size overlap : Int)
    (hpos : 0 < size) (hne : pyStrip text ≠ []) :
    _chunk text size overlap =
      (List.range (((pyStrip text).length + (max (size - overlap) 1).toNat - 1)
          / (max (size - overlap) 1).toNat)).map
        (fun j => ((pyStrip text).drop (j * (max (size - overlap) 1).toNat)).take size.toNat) := by
  have hstep1 : 1 ≤ (max (size - overlap) 1).toNat := by
    have h := le_max_right (size - overlap) (1 : Int)
    omega
  have hchunk : _chunk text size overlap
      = chunkLoop ((pyStrip text).length + 1) (pyStrip text) size.toNat
          ((max (size - overlap) 1).toNat - 1) 0 := by
    rw [_chunk]
    simp only [pyStrip_isEmpty_false text hne, Bool.false_eq_true, if_false,
      if_neg (show ¬ size ≤ 0 by omega)]
  rw [hchunk, chunkLoop_eq _ _ _ _ 0 (by omega)]
  have e1 : (max (size - overlap) 1).toNat - 1 + 1 = (max (size - overlap) 1).toNat := by
    omega
  rw [e1]
  have e2 : (pyStrip text).length - 0 + ((max (size - overlap) 1).toNat - 1)
      = (pyStrip text).length + (max (size - overlap) 1).toNat - 1 := by
    omega
  rw [e2]
  apply List.map_congr_left
  intro j _
  rw [Nat.zero_add]

/-- C1: for non-empty stripped text of length `N`, `chunkSize S > 0` and
`0 ≤ O < S`, the windows of `_chunk` start at `0, (S-O), 2*(S-O), ...`
(explicitly: the result is the map of `j ↦ text[j*step : j*step+S]` over
`j < k` with `step = S - O` and `k = ⌈N/step⌉`), the step is positive and at
most `S`, every start is below `N`, every window is non-empty, and the last
window's end offset `(k-1)*step + lastLength` equals `N`. -/
theorem chunk_coverage (text : List Char) (size overlap : Int) (N S step k : Nat)
    (h1 : 0 < size) (h2 : 0 ≤ overlap) (h3 : overlap < size)
    (h4 : pyStrip text ≠ [])
    (hN : N = (pyStrip text).length) (hS : S = size.toNat)
    (hstep : step = S - overlap.toNat) (hk : k = (N + step - 1) / step) :
    _chunk text size overlap =
      (List.range k).map (fun j => ((pyStrip text).drop (j * step)).take S)
    ∧ 0 < k
    ∧ 0 < step ∧ step ≤ S
    ∧ (∀ j, j < k → j * step < N)
    ∧ (∀ j, j < k → ((pyStrip text).drop (j * step)).take S ≠ [])
    ∧ (k - 1) * step + (((pyStrip text).drop ((k - 1) * step)).take S).length = N := by
  have hstep_pos : 0 < step := by omega
  have hstep_le : step ≤ S := by omega
  have hNpos : 0 < N := by
    rw [hN]
    exact List.length_pos.mpr h4
  have hmax : max (size - overlap) 1 = size - overlap := max_eq_left (by omega)
  have hstep_eq : (max (size - overlap) 1).toNat = step := by
    rw [hmax]; omega
  have hmain : _chunk text size overlap =
      (List.range k).map (fun j => ((pyStrip text).drop (j * step)).take S) := by
    rw [chunk_eq_range_map text size overlap h1 h4, hstep_eq, ← hN, ← hS, ← hk]
  have hcov : ∀ j, j < k → j * step < N := by
    intro j hj
    have h5 : (j + 1) * step ≤ k * step := Nat.mul_le_mul_right step (by omega)
    have h6 : k * step ≤ N + step - 1 := by
      rw [hk]
      exact Nat.div_mul_le_self _ _
    have h7 : (j + 1) * step = j * step + step := by ring
    omega
  refine ⟨hmain, ?_, hstep_pos, hstep_le, hcov, ?_, ?_⟩
  · have h0k := (Nat.one_le_div_iff hstep_pos).mpr (show step ≤ N + step - 1 by omega)
    omega
  · intro j hj
    apply List.ne_nil_of_length_pos
    rw [List.length_take, List.length_drop, ← hN]
    have := hcov j hj
    omega
  · have hk1 : k - 1 < k := by
      have : 0 < k := by
        have h0k := (Nat.one_le_div_iff hstep_pos).mpr (show step ≤ N + step - 1 by omega)
        omega
      omega
    have hlt := hcov (k - 1) hk1
    have hub : N ≤ k * step := by
      have hdm := Nat.div_add_mod (N + step - 1) step
      have hmod := Nat.mod_lt (N + step - 1) hstep_pos
      have hcomm : step * ((N + step - 1) / step) = ((N + step - 1) / step) * step :=
        Nat.mul_comm _ _
      rw [hk]
      omega
    have hks : (k - 1) * step = k * step - step := Nat.sub_one_mul k step
    rw [List.length_take, List.length_drop, ← hN]
    omega

theorem chunk_coverage_witness :
    ((0:Int) < 3 ∧ (0:Int) ≤ 1 ∧ (1:Int) < 3 ∧ pyStrip (("abcdef").data) ≠ []
      ∧ 6 = (pyStrip (("abcdef").data)).length ∧ 3 = (3:Int).toNat
      ∧ 2 = 3 - (1:Int).toNat ∧ 3 = (6 + 2 - 1) / 2)
    ∧ (_chunk (("abcdef").data) 3 1 =
        (List.range 3).map (fun j => ((pyStrip (("abcdef").data)).drop (j * 2)).take 3)
      ∧ 0 < 3
      ∧ 0 < 2 ∧ 2 ≤ 3
      ∧ (∀ j, j < 3 → j * 2 < 6)
      ∧ (∀ j, j < 3 → ((pyStrip (("abcdef").data)).drop (j * 2)).take 3 ≠ [])
      ∧ (3 - 1) * 2 + (((pyStrip (("abcdef").data)).drop ((3 - 1) * 2)).take 3).length = 6) :=
  ⟨⟨by decide, by decide, by decide, by decide, by decide, by decide, by decide, by decide⟩,
   chunk_coverage (("abcdef").data) 3 1 6 3 2 3 (by decide) (by decide) (by decide)
     (by decide) (by decide) (by decide) (by decide) (by decide)⟩

/-- C9: `_chunk` always yields a finite list — at most one window per
character of the stripped text — because the step between window starts is
`max (size - overlap) 1 ≥ 1` even when `overlap ≥ size` (third conjunct
exhibits the windows with that step), and when `chunkSize ≤ 0` the whole
stripped text is returned as a single chunk. -/
theorem chunk_terminates (text : List Char) (size overlap : Int) :
    (size ≤ 0 → _chunk text size overlap =
        if pyStrip text = [] then [] else [pyStrip text])
    ∧ (_chunk text size overlap).length ≤ (pyStrip text).length
    ∧ (0 < size → pyStrip text ≠ [] →
        _chunk text size overlap =
          (List.range (((pyStrip text).length + (max (size - overlap) 1).toNat - 1)
              / (max (size - overlap) 1).toNat)).map
            (fun j => ((pyStrip text).drop (j * (max (size - overlap) 1).toNat)).take
              size.toNat)) := by
  have hlen : (_chunk text size overlap).length ≤ (pyStrip text).length := by
    by_cases hne : pyStrip text = []
    · rw [_chunk]
      simp [hne]
    · have hNpos : 0 < (pyStrip text).length := List.length_pos.mpr hne
      by_cases hsz : size ≤ 0
      · rw [_chunk]
        simp only [pyStrip_isEmpty_false text hne, Bool.false_eq_true, if_false,
          if_pos hsz]
        simpa using hNpos
      · have hpos : 0 < size := by omega
        rw [chunk_eq_range_map text size overlap hpos hne]
        rw [List.length_map, List.length_range]
        have hstep1 : 1 ≤ (max (size - overlap) 1).toNat := by
          have h := le_max_right (size - overlap) (1 : Int)
          omega
        set st := (max (size - overlap) 1).toNat with hst
        set N := (pyStrip text).length with hN
        have hdiv : (N + st - 1) / st < N + 1 := by
          rw [Nat.div_lt_iff_lt_mul (by omega : 0 < st)]
          have hNle : N ≤ N * st := Nat.le_mul_of_pos_right N (by omega)
          have hexp : (N + 1) * st = N * st + st := by ring
          omega
        omega
  refine ⟨?_, hlen, fun hpos hne => chunk_eq_range_map text size overlap hpos hne⟩
  intro hsz
  by_cases hne : pyStrip text = []
  · rw [_chunk]
    simp [hne]
  · rw [_chunk]
    simp only [pyStrip_isEmpty_false text hne, Bool.false_eq_true, if_false, if_pos hsz,
      if_neg hne]

theorem chunk_terminates_witness :
    ((-1 : Int) ≤ 0
      ∧ _chunk ((" ab ").data) (-1) 5 =
          (if pyStrip ((" ab ").data) = [] then [] else [pyStrip ((" ab ").data)]))
    ∧ (_chunk ((" ab ").data) (-1) 5).length ≤ (pyStrip ((" ab ").data)).length
    ∧ ((0:Int) < 2 ∧ pyStrip (("abcd").data) ≠ []
      ∧ _chunk (("abcd").data) 2 5 =
          (List.range ((("abcd").data.length + (max ((2:Int) - 5) 1).toNat - 1)
              / (max ((2:Int) - 5) 1).toNat)).map
            (fun j => ((pyStrip (("abcd").data)).drop
              (j * (max ((2:Int) - 5) 1).toNat)).take (2:Int).toNat)) :=
  ⟨⟨by decide, (chunk_terminates ((" ab ").data) (-1) 5).1 (by decide)⟩,
   (chunk_terminates ((" ab ").data) (-1) 5).2.1,
   by decide, by decide,
   by
     have h := (chunk_terminates (("abcd").data) 2 5).2.2 (by decide) (by decide)
     simpa using h⟩

/-! ## Decoded JSON values

`json.loads` is external library code; its result is modelled by `JVal` and
the decoder itself is passed as a parameter (`none` = `JSONDecodeError`).
`prim` covers numbers, booleans and `None`, carrying their `str()` rendering
and their Python truthiness. -/

inductive JVal where
  | str (s : List Char)
  | arr (l : List JVal)
  | obj (kvs : List (List Char × JVal))
  | prim (reprS : List Char) (truthy : Bool)

/-- Python `dict.get` on the association list representing a decoded object. -/
def jlookup (kvs : List (List Char × JVal)) (k : List Char) : Option JVal :=
  (kvs.find? (fun kv => kv.1 == k)).map (fun kv => kv.2)

/-- Python `repr` of a decoded JSON value (string escaping is not modelled;
only reachable for malformed notebooks). -/
def jrepr : JVal → List Char
  | .str s => Char.ofNat 39 :: (s ++ [Char.ofNat 39])
  | .prim r _ => r
  | .arr l =>
    '[' :: ((List.intercalate ((", ").data) (l.attach.map (fun x => jrepr x.1))) ++ [']'])
  | .obj kvs =>
    Char.ofNat 123 ::
      ((List.intercalate ((", ").data) (kvs.attach.map (fun x =>
          Char.ofNat 39 :: (x.1.1 ++ [Char.ofNat 39]) ++ ((": ").data) ++ jrepr x.1.2))) ++
        [Char.ofNat 125])
termination_by v => sizeOf v
decreasing_by
  · rcases x with ⟨v, hv⟩
    have := List.sizeOf_lt_of_mem hv
    simp only [JVal.arr.sizeOf_spec]
    omega
  · rcases x with ⟨⟨k, v⟩, hv⟩
    have := List.sizeOf_lt_of_mem hv
    simp only [JVal.obj.sizeOf_spec, Prod.mk.sizeOf_spec] at *
    omega

/-- Python `str()` of a decoded JSON value. -/
def jstr : JVal → List Char
  | .str s => s
  | v => jrepr v

/-- `"".join(src)` over the decoded list: `none` is the `TypeError` raised on
a non-string element. -/
def joinAllStr : List JVal → Option (List Char)
  | [] => some []
  | .str s :: rest => (joinAllStr rest).map (fun r => s ++ r)
  | _ => none

/-- Python `c.get("cell_type") in ("markdown", "code")`: true exactly when
the value is the string `"markdown"` or the string `"code"`. -/
def isKeptCellType : Option JVal → Bool
  | some (.str s) => s == ("markdown").data || s == ("code").data
  | _ => false

/-- Python iteration over the `cells` value inside `_extract_ipynb`'s `try`:
a list iterates its elements; an empty string or empty dict iterates
nothing; any other value either is not iterable or yields non-dict items on
which `.get` raises, so the `try` block fails (`none`). -/
def cellsIter : JVal → Option (List JVal)
  | .arr l => some l
  | .str [] => some []
  | .obj [] => some []
  | _ => none

/-- The cell loop of `_extract_ipynb`: keep the source of `markdown`/`code`
cells (joined when a list, `str()` otherwise); `none` signals an exception
(non-dict cell, or a non-string element under `join`). -/
def collectParts : List JVal → Option (List (List Char))
  | [] => some []
  | c :: rest =>
    match c with
    | .obj kvs =>
      if isKeptCellType (jlookup kvs (("cell_type").data)) then
        match (jlookup kvs (("source").data)).getD (.arr []) with
        | .arr l =>
          match joinAllStr l with
          | none => none
          | some s => (collectParts rest).map (fun ps => s :: ps)
        | v => (collectParts rest).map (fun ps => jstr v :: ps)
      else collectParts rest
    | _ => none

/-- Body of `_extract_ipynb`'s `try` after `json.loads` succeeded:
`nb.get("cells", [])` (raising on a non-dict `nb`), iterate, collect. -/
def extractParts : JVal → Option (List (List Char))
  | .obj kvs =>
    match cellsIter ((jlookup kvs (("cells").data)).getD (.arr [])) with
    | none => none
    | some cl => collectParts cl
  | .str _ => none
  | .arr _ => none
  | .prim _ _ => none

/-- `_extract_ipynb` from `src/preprocess/make_corpus.py`: on a decodable
notebook, the markdown/code sources joined by a blank line and normalized;
on any failure (decode error or exception), the raw text normalized. -/
def _extract_ipynb (loads : List Char → Option JVal) (text : List Char) : List Char :=
  match loads text with
  | none => _normalize_text text
  | some nb =>
    match extractParts nb with
    | none => _normalize_text text
    | some parts => _normalize_text (List.intercalate (("\n\n").data) parts)

/-! ## SHA-1 (`hashlib.sha1`, used for the chunk identifiers) -/

/-- Truncate to a 32-bit word. -/
def w32 (n : Nat) : Nat := n % 4294967296

/-- Rotate a 32-bit word left by `b`. -/
def rotl (b n : Nat) : Nat := w32 ((n <<< b) ||| (n >>> (32 - b)))

/-- UTF-8 encoding of one code point (`str.encode "utf-8"`). -/
def utf8Char (c : Char) : List Nat :=
  let n := c.toNat
  if n < 128 then [n]
  else if n < 2048 then [192 + n / 64, 128 + n % 64]
  else if n < 65536 then [224 + n / 4096, 128 + n / 64 % 64, 128 + n % 64]
  else [240 + n / 262144, 128 + n / 4096 % 64, 128 + n / 64 % 64, 128 + n % 64]

def utf8 (s : List Char) : List Nat := (s.map utf8Char).flatten

/-- `k` big-endian bytes of `n`. -/
def bytesBE : Nat → Nat → List Nat
  | 0, _ => []
  | k + 1, n => bytesBE k (n / 256) ++ [n % 256]

/-- SHA-1 padding: `0x80`, zeros to 56 mod 64, 64-bit big-endian bit length. -/
def sha1Pad (msg : List Nat) : List Nat :=
  msg ++ [128] ++ List.replicate ((55 + 64 - msg.length % 64) % 64) 0
    ++ bytesBE 8 (8 * msg.length)

/-- Big-endian 32-bit words from a list of bytes. -/
def toWords : List Nat → List Nat
  | b0 :: b1 :: b2 :: b3 :: rest =>
    (((b0 * 256 + b1) * 256 + b2) * 256 + b3) :: toWords rest
  | _ => []

def sha1F (i b c d : Nat) : Nat :=
  if i < 20 then (b &&& c) ||| ((4294967295 ^^^ b) &&& d)
  else if i < 40 then b ^^^ c ^^^ d
  else if i < 60 then (b &&& c) ||| (b &&& d) ||| (c &&& d)
  else b ^^^ c ^^^ d

def sha1K (i : Nat) : Nat :=
  if i < 20 then 1518500249 else if i < 40 then 1859775393
  else if i < 60 then 2400959708 else 3395469782

/-- Extend the 16 block words by `k` further schedule words. -/
def sha1Extend : List Nat → Nat → List Nat
  | w, 0 => w
  | w, k + 1 =>
    let n := w.length
    sha1Extend
      (w ++ [rotl 1 ((w.getD (n - 3) 0) ^^^ (w.getD (n - 8) 0) ^^^
        (w.getD (n - 14) 0) ^^^ (w.getD (n - 16) 0))]) k

structure Sha1State where
  h0 : Nat
  h1 : Nat
  h2 : Nat
  h3 : Nat
  h4 : Nat
deriving DecidableEq

/-- One SHA-1 compression round over a 16-word block. -/
def sha1Compress (st : Sha1State) (block : List Nat) : Sha1State :=
  let w := sha1Extend block 64
  let r := (List.range 80).foldl
    (fun abcde i =>
      match abcde with
      | (a, b, c, d, e) =>
        (w32 (rotl 5 a + sha1F i b c d + e + sha1K i + w.getD i 0), a, rotl 30 b, c, d))
    (st.h0, st.h1, st.h2, st.h3, st.h4)
  match r with
  | (a, b, c, d, e) =>
    ⟨w32 (st.h0 + a), w32 (st.h1 + b), w32 (st.h2 + c), w32 (st.h3 + d), w32 (st.h4 + e)⟩

/-- Split the padded message into 64-byte blocks (`fuel` bounds the count). -/
def splitBlocks : Nat → List Nat → List (List Nat)
  | _, [] => []
  | 0, _ => []
  | f + 1, l => (toWords (l.take 64)) :: splitBlocks f (l.drop 64)

def sha1Digest (msg : List Nat) : Sha1State :=
  (splitBlocks (sha1Pad msg).length (sha1Pad msg)).foldl sha1Compress
    ⟨1732584193, 4023233417, 2562383102, 271733878, 3285377520⟩

def hexDigit (n : Nat) : Char := Char.ofNat (if n < 10 then 48 + n else 87 + n)

def hexWord (n : Nat) : List Char :=
  (List.range 8).map (fun k => hexDigit (n / 2 ^ (4 * (7 - k)) % 16))

/-- `hashlib.sha1(s.encode "utf-8").hexdigest()`. -/
def sha1hex (s : List Char) : List Char :=
  let st := sha1Digest (utf8 s)
  hexWord st.h0 ++ hexWord st.h1 ++ hexWord st.h2 ++ hexWord st.h3 ++ hexWord st.h4

example : sha1hex (("abc").data) = ("a9993e364706816aba3e25717850c26c9cd0d89d").data := by
  decide
example : sha1hex ([]) = ("da39a3ee5e6b4b0d3255bfef95601890afd80709").data := by decide

/-! ## `build_corpus` from `src/preprocess/make_corpus.py`

The `_iter_repo_docs` file stream is replaced by an in-memory list of
`(owner, document)` pairs; the documents carry the fields `build_corpus`
reads (`name`, `link`, `content` as an insertion-ordered path ↦ raw-text
mapping). -/

/-- Decimal rendering of a natural number, as in the f-string building the
id base (`fuel`-structured; `n + 1` steps always suffice). -/
def decimalAux : Nat → Nat → List Char
  | 0, _ => []
  | f + 1, n =>
    if n < 10 then [Char.ofNat (48 + n)]
    else decimalAux f (n / 10) ++ [Char.ofNat (48 + n % 10)]

def decimal (n : Nat) : List Char := decimalAux (n + 1) n

example : decimal 0 = ("0").data := by decide
example : decimal 1507 = ("1507").data := by decide

/-- The f-string `f"(owner)|(repo)|(rel_path)|(idx)|(len(piece))"`. -/
def chunkBase (owner repo path : List Char) (idx len : Nat) : List Char :=
  owner ++ ['|'] ++ repo ++ ['|'] ++ path ++ ['|'] ++ decimal idx ++ ['|'] ++ decimal len

/-- Split on `/` (keeping empty components). -/
def splitSlash : List Char → List (List Char)
  | [] => [[]]
  | c :: rest =>
    if c = '/' then [] :: splitSlash rest
    else
      match splitSlash rest with
      | [] => [[c]]
      | p :: ps => (c :: p) :: ps

/-- `PurePath(p).name`: the last non-empty, non-`"."` path component. -/
def pathName (p : List Char) : List Char :=
  ((splitSlash p).filter (fun comp => !comp.isEmpty && comp != [Char.ofNat 46])).getLastD []

/-- Index of the last `'.'`. -/
def rfindDot : List Char → Option Nat
  | [] => none
  | c :: rest =>
    match rfindDot rest with
    | some j => some (j + 1)
    | none => if c = '.' then some 0 else none

/-- `PurePath(p).suffix`: the last dot-suffix of the name; empty when the
dot is leading (hidden file) or trailing. -/
def pySuffix (p : List Char) : List Char :=
  let name := pathName p
  match rfindDot name with
  | some i => if 0 < i ∧ i < name.length - 1 then name.drop i else []
  | none => []

example : pySuffix (("a/b.PY").data) = (".PY").data := by decide
example : pySuffix ((".bashrc").data) = [] := by decide
example : pySuffix (("a.").data) = [] := by decide
example : pySuffix (("x.tar.gz").data) = (".gz").data := by decide
example : pySuffix (("noext").data) = [] := by decide

/-- `str.lower()` (exact on ASCII). -/
def lowerStr (s : List Char) : List Char := s.map Char.toLower

/-- `_lang_from_ext` from `src/preprocess/make_corpus.py`. -/
def _lang_from_ext (ext : List Char) : List Char :=
  let e := lowerStr ext
  if e = ((".py").data) then ("python").data
  else if e = ((".md").data) then ("markdown").data
  else if e = ((".txt").data) then ("text").data
  else if e = ((".ipynb").data) then ("notebook").data
  else if e = ((".json").data) then ("json").data
  else if e = ((".yaml").data) then ("yaml").data
  else if e = ((".yml").data) then ("yaml").data
  else if e = ((".js").data) then ("javascript").data
  else if e = ((".ts").data) then ("typescript").data
  else if e = ((".cpp").data) then ("cpp").data
  else if e = ((".c").data) then ("c").data
  else e.dropWhile (fun c => c == '.')

/-- Python `str.isprintable` per character: exact on ASCII; non-ASCII
characters are treated as printable unless they are C1 controls or Unicode
whitespace (approximating the Unicode category tables). -/
def pyIsPrintable (c : Char) : Bool :=
  let n := c.toNat
  if n < 128 then 32 ≤ n && n ≤ 126
  else !(n ≤ 159 || isPyWs c)

/-- `_printable_ratio` from `src/preprocess/make_corpus.py`. -/
def _printable_ratio (s : List Char) : ℚ :=
  if s.isEmpty then 0
  else (s.countP (fun c => pyIsPrintable c || c == '\n' || c == '\t') : ℚ) / (max s.length 1)

/-- The fields of a persisted repository document that `build_corpus` reads. -/
structure RepoDoc where
  name : List Char
  link : List Char
  content : List (List Char × List Char)

/-- The `metadata` dict of an emitted chunk record. -/
structure ChunkMeta where
  source : List Char
  owner : List Char
  repo : List Char
  path : List Char
  ext : List Char
  lang : List Char
  repo_url : List Char
  chunk_index : Nat
  n_chunks : Nat
deriving DecidableEq

/-- One emitted chunk record. -/
structure ChunkRecord where
  id : List Char
  text : List Char
  metadata : ChunkMeta
deriving DecidableEq

/-- The per-file body of `build_corpus`'s inner loop: extension gate,
extraction/normalization, size and printability gates, chunking, then one
record per chunk with the SHA-1 id of the f-string base. -/
def fileRecords (loads : List Char → Option JVal) (owner repo link rel_path raw : List Char)
    (inc exc : List (List Char)) (max_file_chars chunk_size chunk_overlap : Int) :
    List ChunkRecord :=
  let ext := lowerStr (pySuffix rel_path)
  if ¬ inc.isEmpty ∧ ¬ ext ∈ inc then []
  else if ext ∈ exc then []
  else
    let text := if ext = ((".ipynb").data) then _extract_ipynb loads raw
                else _normalize_text raw
    if text.isEmpty ∨ (text.length : Int) > max_file_chars
        ∨ _printable_ratio text < 85 / 100 then []
    else
      let pieces := _chunk text chunk_size chunk_overlap
      let lang := _lang_from_ext ext
      pieces.enum.map (fun p =>
        { id := sha1hex (chunkBase owner repo rel_path p.1 p.2.length)
          text := p.2
          metadata :=
            { source := ("github").data, owner := owner, repo := repo, path := rel_path
              ext := ext, lang := lang, repo_url := link
              chunk_index := p.1, n_chunks := pieces.length } })

/-- `build_corpus` from `src/preprocess/make_corpus.py`, over the in-memory
document stream. -/
def build_corpus (loads : List Char → Option JVal) (docs : List (List Char × RepoDoc))
    (include_exts exclude_exts : List (List Char))
    (max_file_chars chunk_size chunk_overlap : Int) : List ChunkRecord :=
  let inc := include_exts.map lowerStr
  let exc := exclude_exts.map lowerStr
  docs.flatMap (fun od =>
    od.2.content.flatMap (fun pr =>
      fileRecords loads od.1 od.2.name od.2.link pr.1 pr.2 inc exc
        max_file_chars chunk_size chunk_overlap))

/-! ## Claim C8: notebook extraction -/

theorem joinAllStr_map_str (l : List (List Char)) :
    joinAllStr (l.map JVal.str) = some l.flatten := by
  induction l with
  | nil => rfl
  | cons s rest ih => simp [joinAllStr, ih]

/-- The decoded form of a well-structured notebook cell
`(cell_type, source lines)`. -/
def cellJVal (c : List Char × List (List Char)) : JVal :=
  JVal.obj [((("cell_type").data), JVal.str c.1),
            ((("source").data), JVal.arr (c.2.map JVal.str))]

theorem isKeptCellType_str (s : List Char) :
    isKeptCellType (some (JVal.str s)) =
      (s == ("markdown").data || s == ("code").data) := rfl

theorem collectParts_cells (cells : List (List Char × List (List Char))) :
    collectParts (cells.map cellJVal) =
      some ((cells.filter
        (fun c => c.1 == ("markdown").data || c.1 == ("code").data)).map
          (fun c => c.2.flatten)) := by
  induction cells with
  | nil => rfl
  | cons c rest ih =>
    have hred : collectParts (cellJVal c :: List.map cellJVal rest)
        = if isKeptCellType (some (JVal.str c.1)) = true then
            (match joinAllStr (List.map JVal.str c.2) with
              | none => none
              | some s => (collectParts (List.map cellJVal rest)).map (fun ps => s :: ps))
          else collectParts (List.map cellJVal rest) := rfl
    rw [List.map_cons, hred, isKeptCellType_str, joinAllStr_map_str]
    by_cases hty : (c.1 == ("markdown").data || c.1 == ("code").data) = true
    · rw [if_pos hty, ih]
      simp [List.filter_cons, hty]
    · rw [if_neg hty, ih]
      have hf : (c.1 == ("markdown").data || c.1 == ("code").data) = false := by
        simpa using hty
      simp [List.filter_cons, hf]

/-- C8: on a file whose raw content decodes as a notebook-structured value,
`_extract_ipynb` concatenates the sources of `markdown` and `code` cells
only (cells of any other type are ignored), joined by a blank line, then
normalizes; on decode failure it normalizes the raw text; the two-cell
`"# Title"`/`"print(1)"` notebook extracts to `"# Title\n\nprint(1)"`. -/
theorem notebook_extraction (loads : List Char → Option JVal) (text : List Char)
    (nbkvs : List (List Char × JVal)) (cells : List (List Char × List (List Char))) :
    (loads text = some (JVal.obj nbkvs) →
      jlookup nbkvs (("cells").data) = some (JVal.arr (cells.map cellJVal)) →
      _extract_ipynb loads text =
        _normalize_text (List.intercalate (("\n\n").data)
          ((cells.filter
            (fun c => c.1 == ("markdown").data || c.1 == ("code").data)).map
              (fun c => c.2.flatten))))
    ∧ (loads text = none → _extract_ipynb loads text = _normalize_text text)
    ∧ _extract_ipynb
        (fun _ => some (JVal.obj [((("cells").data),
          JVal.arr [cellJVal ((("markdown").data), [("# Title").data]),
                    cellJVal ((("code").data), [("print(1)").data])])])) []
        = ("# Title\n\nprint(1)").data := by
  refine ⟨?_, ?_, ?_⟩
  · intro h1 h2
    rw [_extract_ipynb, h1]
    simp only [extractParts, h2, Option.getD_some, cellsIter, collectParts_cells]
  · intro h
    rw [_extract_ipynb, h]
  · decide

/-- The two-cell example notebook. -/
def nbCellsEx : List (List Char × List (List Char)) :=
  [((("markdown").data), [("# Title").data]), ((("code").data), [("print(1)").data])]

def nbKvsEx : List (List Char × JVal) :=
  [((("cells").data), JVal.arr (nbCellsEx.map cellJVal))]

def loadsEx : List Char → Option JVal := fun _ => some (JVal.obj nbKvsEx)

theorem notebook_extraction_witness :
    (loadsEx [] = some (JVal.obj nbKvsEx)
      ∧ jlookup nbKvsEx (("cells").data) = some (JVal.arr (nbCellsEx.map cellJVal)))
    ∧ _extract_ipynb loadsEx [] =
        _normalize_text (List.intercalate (("\n\n").data)
          ((nbCellsEx.filter
            (fun c => c.1 == ("markdown").data || c.1 == ("code").data)).map
              (fun c => c.2.flatten))) :=
  ⟨⟨rfl, rfl⟩, (notebook_extraction loadsEx [] nbKvsEx nbCellsEx).1 rfl rfl⟩

/-! ## Claims C2 and C5: chunk ids and the extension gate -/

/-- Every record in the output of `fileRecords` comes from the final
`enum.map`, with every gate passed. -/
theorem fileRecords_mem (loads : List Char → Option JVal)
    (owner repo link rel_path raw : List Char) (inc exc : List (List Char))
    (mfc cs co : Int) (r : ChunkRecord)
    (hr : r ∈ fileRecords loads owner repo link rel_path raw inc exc mfc cs co) :
    (¬(¬ inc.isEmpty ∧ ¬ lowerStr (pySuffix rel_path) ∈ inc))
    ∧ ¬ lowerStr (pySuffix rel_path) ∈ exc
    ∧ ∃ idx piece,
        r = { id := sha1hex (chunkBase owner repo rel_path idx piece.length)
              text := piece
              metadata :=
                { source := ("github").data, owner := owner, repo := repo
                  path := rel_path, ext := lowerStr (pySuffix rel_path)
                  lang := _lang_from_ext (lowerStr (pySuffix rel_path)), repo_url := link
                  chunk_index := idx
                  n_chunks := (_chunk (if lowerStr (pySuffix rel_path) = ((".ipynb").data)
                    then _extract_ipynb loads raw else _normalize_text raw) cs co).length } } := by
  rw [fileRecords] at hr
  set ext := lowerStr (pySuffix rel_path) with hext
  set T := (if ext = ((".ipynb").data) then _extract_ipynb loads raw
    else _normalize_text raw) with hT
  by_cases h1 : ¬ inc.isEmpty ∧ ¬ ext ∈ inc
  · rw [if_pos h1] at hr
    simp at hr
  · rw [if_neg h1] at hr
    by_cases h2 : ext ∈ exc
    · rw [if_pos h2] at hr
      simp at hr
    · rw [if_neg h2] at hr
      by_cases h3 : T.isEmpty ∨ (T.length : Int) > mfc ∨ _printable_ratio T < 85 / 100
      · rw [if_pos h3] at hr
        simp at hr
      · rw [if_neg h3] at hr
        refine ⟨h1, h2, ?_⟩
        simp only [List.mem_map] at hr
        obtain ⟨pp, hpp, hrec⟩ := hr
        exact ⟨pp.1, pp.2, hrec.symm⟩

/-- C2: every record emitted by `build_corpus` has as id the SHA-1 hex
digest of the f-string built from its owner, repo, path, chunk index and
chunk length; and `build_corpus` is a pure function of its input, so two
runs over identical documents give byte-identical record lists and
identical per-path record counts. -/
theorem chunk_id_deterministic (loads : List Char → Option JVal)
    (docs : List (List Char × RepoDoc)) (inc exc : List (List Char)) (mfc cs co : Int) :
    (∀ r ∈ build_corpus loads docs inc exc mfc cs co,
        r.id = sha1hex (chunkBase r.metadata.owner r.metadata.repo r.metadata.path
          r.metadata.chunk_index r.text.length))
    ∧ build_corpus loads docs inc exc mfc cs co
        = build_corpus loads docs inc exc mfc cs co
    ∧ (∀ p : List Char,
        ((build_corpus loads docs inc exc mfc cs co).filter
          (fun r => r.metadata.path == p)).length
        = ((build_corpus loads docs inc exc mfc cs co).filter
          (fun r => r.metadata.path == p)).length) := by
  refine ⟨?_, rfl, fun p => rfl⟩
  intro r hr
  rw [build_corpus] at hr
  simp only [List.mem_flatMap] at hr
  obtain ⟨od, _, pr, _, hmem⟩ := hr
  obtain ⟨-, -, idx, piece, hrec⟩ := fileRecords_mem _ _ _ _ _ _ _ _ _ _ _ r hmem
  subst hrec
  rfl

/-- A one-file document stream used by the concrete witnesses. -/
def docEx : List (List Char × RepoDoc) :=
  [(("o").data, ⟨("r").data, ("u").data, [(("a.md").data, ("hello world").data)]⟩)]

/-- The single record produced from `docEx`. -/
def recEx : ChunkRecord :=
  { id := sha1hex (chunkBase (("o").data) (("r").data) (("a.md").data) 0 11)
    text := ("hello world").data
    metadata :=
      { source := ("github").data, owner := ("o").data, repo := ("r").data
        path := ("a.md").data, ext := ((".md").data), lang := ("markdown").data
        repo_url := ("u").data, chunk_index := 0, n_chunks := 1 } }

theorem chunk_id_deterministic_witness :
    recEx ∈ build_corpus (fun _ => none) docEx [] [] 1000 1200 200
    ∧ recEx.id = sha1hex (chunkBase recEx.metadata.owner recEx.metadata.repo
        recEx.metadata.path recEx.metadata.chunk_index recEx.text.length) :=
  ⟨by with_unfolding_all decide,
   (chunk_id_deterministic (fun _ => none) docEx [] [] 1000 1200 200).1 recEx
     (by with_unfolding_all decide)⟩

/-- C5: a file is skipped (contributes no records) when the lowered
include-set is non-empty and its extension is absent from it, and — tested
independently — when its extension is in the lowered exclude-set: every
emitted record's extension passes both gates.  Concretely, an excluded
`.py` file is rejected under an empty include-set, and a `.py` file is
rejected under the include-set `[".md"]` even with nothing excluded. -/
theorem extension_gate (loads : List Char → Option JVal)
    (docs : List (List Char × RepoDoc)) (include_exts exclude_exts : List (List Char))
    (mfc cs co : Int) :
    (∀ r ∈ build_corpus loads docs include_exts exclude_exts mfc cs co,
        ¬((include_exts.map lowerStr ≠ [] ∧ r.metadata.ext ∉ include_exts.map lowerStr)
          ∨ r.metadata.ext ∈ exclude_exts.map lowerStr))
    ∧ build_corpus loads
        [(("o").data, ⟨("r").data, ("u").data, [(("a.py").data, ("hello world").data)]⟩)]
        [] [((".py").data)] 1000 1200 200 = []
    ∧ build_corpus loads
        [(("o").data, ⟨("r").data, ("u").data, [(("a.py").data, ("hello world").data)]⟩)]
        [((".md").data)] [] 1000 1200 200 = [] := by
  refine ⟨?_, rfl, rfl⟩
  intro r hr
  rw [build_corpus] at hr
  simp only [List.mem_flatMap] at hr
  obtain ⟨od, _, pr, _, hmem⟩ := hr
  obtain ⟨hinc, hexc, idx, piece, hrec⟩ :=
    fileRecords_mem _ _ _ _ _ _ _ _ _ _ _ r hmem
  have hext : r.metadata.ext = lowerStr (pySuffix pr.1) := by
    subst hrec; rfl
  rw [hext]
  intro hbad
  rcases hbad with ⟨hne, hnotin⟩ | hin
  · exact hinc ⟨by simpa [List.isEmpty_iff] using hne, hnotin⟩
  · exact hexc hin

theorem extension_gate_witness :
    recEx ∈ build_corpus (fun _ => none) docEx [((".md").data)] [((".py").data)] 1000 1200 200
    ∧ ¬((([((".md").data)].map lowerStr) ≠ [] ∧ recEx.metadata.ext ∉ [((".md").data)].map lowerStr)
        ∨ recEx.metadata.ext ∈ [((".py").data)].map lowerStr) :=
  ⟨by with_unfolding_all decide,
   (extension_gate (fun _ => none) docEx [((".md").data)] [((".py").data)] 1000 1200 200).1 recEx
     (by with_unfolding_all decide)⟩

/-! ## `tools/clean_corpus.py` -/

/-- `_ascii_ratio` from `tools/clean_corpus.py`. -/
def _ascii_ratio (s : List Char) : ℚ :=
  if s.isEmpty then 1
  else (s.countP (fun c => decide (c.toNat < 128)) : ℚ) / (s.length : ℚ)

/-- `_letters_and_digits_counts` from `tools/clean_corpus.py` (exact on
ASCII; the Unicode alphabetic/digit classes are approximated by ASCII). -/
def _letters_and_digits_counts (s : List Char) : Nat × Nat :=
  (s.countP (fun c => c.isAlpha), s.countP (fun c => c.isDigit))

/-- `_is_mostly_numeric` from `tools/clean_corpus.py`. -/
def _is_mostly_numeric (text : List Char) (max_digit_ratio : ℚ) : Bool :=
  let ld := _letters_and_digits_counts text
  let denom := ld.1 + ld.2
  if denom = 0 then true
  else decide ((ld.2 : ℚ) / (denom : ℚ) ≥ max_digit_ratio)

/-- `_is_english` from `tools/clean_corpus.py`.  The `langdetect` classifier
is the parameter `detect`: `none` models "unavailable or raises", `some`
gives the `(lang, prob)` list of `detect_langs`. -/
def _is_english (detect : List Char → Option (List (List Char × ℚ)))
    (text : List Char) (min_chars : Int) (min_prob ascii_min_ratio : ℚ) : Bool :=
  let t := pyStrip text
  if t.isEmpty then false
  else if (t.length : Int) ≥ max min_chars 1 then
    match detect t with
    | some langs => langs.any (fun lp => lp.1 == ("en").data && decide (lp.2 ≥ min_prob))
    | none => decide (_ascii_ratio t ≥ ascii_min_ratio)
  else decide (_ascii_ratio t ≥ ascii_min_ratio)

/-- Python truthiness of a decoded JSON value. -/
def jtruthy : JVal → Bool
  | .str s => !s.isEmpty
  | .arr l => !l.isEmpty
  | .obj kvs => !kvs.isEmpty
  | .prim _ t => t

/-- `(obj.get "text" or "")` used as a string: `none` models the uncaught
`AttributeError` raised when `obj` is not a dict, or when a truthy `text`
value is not a string. -/
def objTextOrEmpty : JVal → Option (List Char)
  | .obj kvs =>
    (match jlookup kvs (("text").data) with
      | none => some []
      | some v =>
        if jtruthy v then
          match v with
          | .str s => some s
          | _ => none
        else some [])
  | .str _ => none
  | .arr _ => none
  | .prim _ _ => none

/-- The counters and kept records of `main` in `tools/clean_corpus.py`. -/
structure CleanState where
  kept : Nat
  dropped_non_en : Nat
  dropped_numeric : Nat
  dropped_empty : Nat
  total : Nat
  out : List JVal

/-- One iteration of the `for line in fin` loop of `main`; `none` models an
uncaught exception (a decoded line that is not an object, or a truthy
non-string `text` field). -/
def cleanStep (loads : List Char → Option JVal)
    (detect : List Char → Option (List (List Char × ℚ)))
    (lang_min_chars : Int) (lang_min_prob ascii_min_ratio max_digit_ratio : ℚ)
    (st : CleanState) (rawLine : List Char) : Option CleanState :=
  let st := { st with total := st.total + 1 }
  let line := pyStrip rawLine
  if line.isEmpty then some st
  else
    match loads line with
    | none => some { st with dropped_empty := st.dropped_empty + 1 }
    | some obj =>
      match objTextOrEmpty obj with
      | none => none
      | some t0 =>
        let text := pyStrip t0
        if text.isEmpty then some { st with dropped_empty := st.dropped_empty + 1 }
        else if _is_mostly_numeric text max_digit_ratio then
          some { st with dropped_numeric := st.dropped_numeric + 1 }
        else if ¬ _is_english detect text lang_min_chars lang_min_prob ascii_min_ratio then
          some { st with dropped_non_en := st.dropped_non_en + 1 }
        else some { st with kept := st.kept + 1, out := st.out ++ [obj] }

/-- The whole `for line in fin` loop of `main`. -/
def runClean (loads : List Char → Option JVal)
    (detect : List Char → Option (List (List Char × ℚ)))
    (mc : Int) (mp amr mdr : ℚ) : CleanState → List (List Char) → Option CleanState
  | st, [] => some st
  | st, line :: rest =>
    match cleanStep loads detect mc mp amr mdr st line with
    | none => none
    | some st' => runClean loads detect mc mp amr mdr st' rest

/-- Lines that strip to empty (skipped without any category counter). -/
def countBlank (lines : List (List Char)) : Nat :=
  (lines.filter (fun l => (pyStrip l).isEmpty)).length

/-! ## Claims C6 and C7 -/

/-- C6: the numeric predicate rejects exactly when there are no letters or
digits at all, or when `digits / (letters + digits) ≥ maxDigitRatio` (the
boundary is inclusive): a text at exactly the ratio is rejected, and the
same text with one digit fewer is kept. -/
theorem mostly_numeric_boundary :
    (∀ (text : List Char) (r : ℚ),
        _is_mostly_numeric text r = true ↔
          (text.countP (fun c => c.isAlpha) + text.countP (fun c => c.isDigit) = 0
            ∨ ((text.countP (fun c => c.isDigit) : ℚ) /
                ((text.countP (fun c => c.isAlpha) + text.countP (fun c => c.isDigit) : Nat) : ℚ)
                ≥ r)))
    ∧ _is_mostly_numeric (("abcd123456").data) (3 / 5) = true
    ∧ _is_mostly_numeric (("abcd12345").data) (3 / 5) = false := by
  refine ⟨?_, by with_unfolding_all decide, by with_unfolding_all decide⟩
  intro text r
  simp only [_is_mostly_numeric, _letters_and_digits_counts]
  by_cases h : text.countP (fun c => c.isAlpha) + text.countP (fun c => c.isDigit) = 0
  · simp [h]
  · simp [h, decide_eq_true_iff, ge_iff_le]

/-- C7: whenever the stripped text is non-empty and shorter than
`max langMinChars 1`, or the classifier is unavailable/raises (`detect`
returns `none`), the language predicate accepts exactly when the fraction
of code points below 128 is at least `asciiMinRatio`; in particular a
50-character pure-ASCII sentence is accepted with no classifier at the
default thresholds. -/
theorem short_text_ascii_fallback :
    (∀ (detect : List Char → Option (List (List Char × ℚ))) (text : List Char)
        (mc : Int) (mp amr : ℚ),
        pyStrip text ≠ [] →
        (((pyStrip text).length : Int) < max mc 1 ∨ detect (pyStrip text) = none) →
        (_is_english detect text mc mp amr = true ↔ _ascii_ratio (pyStrip text) ≥ amr))
    ∧ _is_english (fun _ => none)
        (("The quick brown fox jumps over the lazy dog today.").data) 200 (4 / 5) (9 / 10)
        = true
    ∧ (("The quick brown fox jumps over the lazy dog today.").data).length = 50 := by
  refine ⟨?_, by with_unfolding_all decide, by decide⟩
  intro detect text mc mp amr hne hcase
  have hempty : (pyStrip text).isEmpty = false := by
    cases hh : pyStrip text with
    | nil => exact absurd hh hne
    | cons a t => rfl
  rw [_is_english]
  simp only [hempty, Bool.false_eq_true, if_false]
  by_cases hlen : ((pyStrip text).length : Int) ≥ max mc 1
  · rw [if_pos hlen]
    have hdet : detect (pyStrip text) = none := by
      rcases hcase with hlt | hd
      · omega
      · exact hd
    rw [hdet]
    exact decide_eq_true_iff
  · rw [if_neg hlen]
    exact decide_eq_true_iff

theorem short_text_ascii_fallback_witness :
    (pyStrip ((("The quick brown fox jumps over the lazy dog today.").data)) ≠ []
      ∧ (((pyStrip (("The quick brown fox jumps over the lazy dog today.").data)).length : Int)
          < max 200 1
        ∨ (fun _ : List Char => (none : Option (List (List Char × ℚ))))
            (pyStrip (("The quick brown fox jumps over the lazy dog today.").data)) = none))
    ∧ (_is_english (fun _ => none)
        (("The quick brown fox jumps over the lazy dog today.").data) 200 (4 / 5) (9 / 10)
          = true
        ↔ _ascii_ratio (pyStrip (("The quick brown fox jumps over the lazy dog today.").data))
            ≥ 9 / 10) :=
  ⟨⟨by decide, Or.inl (by decide)⟩,
   short_text_ascii_fallback.1 (fun _ => none)
     (("The quick brown fox jumps over the lazy dog today.").data) 200 (4 / 5) (9 / 10)
     (by decide) (Or.inl (by decide))⟩

/-! ## Claim C4: the cleaner's counters -/

theorem cleanStep_counts (loads : List Char → Option JVal)
    (detect : List Char → Option (List (List Char × ℚ)))
    (mc : Int) (mp amr mdr : ℚ) (st : CleanState) (line : List Char) (st' : CleanState)
    (h : cleanStep loads detect mc mp amr mdr st line = some st') :
    st'.total = st.total + 1
    ∧ st'.kept + st'.dropped_non_en + st'.dropped_numeric + st'.dropped_empty
        + (if (pyStrip line).isEmpty then 1 else 0)
      = st.kept + st.dropped_non_en + st.dropped_numeric + st.dropped_empty + 1 := by
  simp only [cleanStep] at h
  split at h
  case isTrue hb =>
    injection h with h
    subst h
    refine ⟨rfl, ?_⟩
    simp [hb]
  case isFalse hb =>
    split at h
    case h_1 =>
      injection h with h
      subst h
      refine ⟨rfl, ?_⟩
      simp only [if_neg hb]
      omega
    case h_2 obj _ =>
      split at h
      case h_1 => exact absurd h (by simp)
      case h_2 t0 _ =>
        split at h
        case isTrue =>
          injection h with h
          subst h
          refine ⟨rfl, ?_⟩
          simp only [if_neg hb]
          omega
        case isFalse =>
          split at h
          case isTrue =>
            injection h with h
            subst h
            refine ⟨rfl, ?_⟩
            simp only [if_neg hb]
            omega
          case isFalse =>
            split at h
            case isTrue =>
              injection h with h
              subst h
              refine ⟨rfl, ?_⟩
              simp only [if_neg hb]
              omega
            case isFalse =>
              injection h with h
              subst h
              refine ⟨rfl, ?_⟩
              simp only [if_neg hb]
              omega

theorem runClean_partition (loads : List Char → Option JVal)
    (detect : List Char → Option (List (List Char × ℚ)))
    (mc : Int) (mp amr mdr : ℚ) :
    ∀ (lines : List (List Char)) (st res : CleanState),
      runClean loads detect mc mp amr mdr st lines = some res →
      res.total + st.kept + st.dropped_non_en + st.dropped_numeric + st.dropped_empty
        = st.total + res.kept + res.dropped_non_en + res.dropped_numeric + res.dropped_empty
          + countBlank lines := by
  intro lines
  induction lines with
  | nil =>
    intro st res h
    rw [runClean] at h
    injection h with h
    subst h
    simp [countBlank]
  | cons line rest ih =>
    intro st res h
    rw [runClean] at h
    cases hs : cleanStep loads detect mc mp amr mdr st line with
    | none => rw [hs] at h; simp at h
    | some st' =>
      rw [hs] at h
      obtain ⟨h1, h2⟩ := cleanStep_counts loads detect mc mp amr mdr st line st' hs
      have hr := ih st' res h
      have hcb : countBlank (line :: rest)
          = (if (pyStrip line).isEmpty then 1 else 0) + countBlank rest := by
        simp only [countBlank, List.filter_cons]
        by_cases hb : (pyStrip line).isEmpty = true
        · simp only [hb, if_pos trivial, List.length_cons]
          omega
        · simp [hb]
      rw [hcb]
      by_cases hb : (pyStrip line).isEmpty = true
      · rw [if_pos hb] at h2 ⊢
        omega
      · rw [if_neg hb] at h2 ⊢
        omega

/-- C4 (counterexample): a line that strips to empty is counted by the
total-seen counter but by none of the four category counters, so after a
run over one blank line the total (1) differs from the category sum (0),
refuting the claimed partition `total = kept + nonEnglish + numeric +
empty`. -/
theorem cleaner_counter_counterexample :
    runClean (fun _ => none) (fun _ => none) 200 (4 / 5) (9 / 10) (3 / 5)
        ⟨0, 0, 0, 0, 0, []⟩ [(" ").data] = some ⟨0, 0, 0, 0, 1, []⟩
    ∧ (⟨0, 0, 0, 0, 1, ([] : List JVal)⟩ : CleanState).total
        ≠ (⟨0, 0, 0, 0, 1, ([] : List JVal)⟩ : CleanState).kept
          + (⟨0, 0, 0, 0, 1, ([] : List JVal)⟩ : CleanState).dropped_non_en
          + (⟨0, 0, 0, 0, 1, ([] : List JVal)⟩ : CleanState).dropped_numeric
          + (⟨0, 0, 0, 0, 1, ([] : List JVal)⟩ : CleanState).dropped_empty :=
  ⟨rfl, by decide⟩

/-- C4 (amended): every non-blank line counted by the total-seen counter is
counted by exactly one category counter, so on any exception-free run
`total = kept + droppedNonEnglish + droppedNumeric + droppedEmptyOrInvalid
+ (number of blank lines)`; a malformed (undecodable) non-blank line is
counted under dropped-empty-or-invalid and processing continues; and the
counters are a pure (deterministic) function of the input stream. -/
theorem cleaner_counter_partition (loads : List Char → Option JVal)
    (detect : List Char → Option (List (List Char × ℚ)))
    (mc : Int) (mp amr mdr : ℚ) (lines : List (List Char)) (res : CleanState)
    (h : runClean loads detect mc mp amr mdr ⟨0, 0, 0, 0, 0, []⟩ lines = some res) :
    res.total = res.kept + res.dropped_non_en + res.dropped_numeric + res.dropped_empty
      + countBlank lines
    ∧ (∀ (st : CleanState) (line : List Char),
        ¬ (pyStrip line).isEmpty = true → loads (pyStrip line) = none →
        cleanStep loads detect mc mp amr mdr st line
          = some { st with total := st.total + 1, dropped_empty := st.dropped_empty + 1 })
    ∧ runClean loads detect mc mp amr mdr ⟨0, 0, 0, 0, 0, []⟩ lines
        = runClean loads detect mc mp amr mdr ⟨0, 0, 0, 0, 0, []⟩ lines := by
  refine ⟨?_, ?_, rfl⟩
  · have := runClean_partition loads detect mc mp amr mdr lines ⟨0, 0, 0, 0, 0, []⟩ res h
    simpa using this
  · intro st line hb hl
    simp only [cleanStep, if_neg hb, hl]

theorem cleaner_counter_partition_witness :
    runClean (fun _ => none) (fun _ => none) 200 (4 / 5) (9 / 10) (3 / 5)
        ⟨0, 0, 0, 0, 0, []⟩ [("x").data] = some ⟨0, 0, 0, 1, 1, []⟩
    ∧ (⟨0, 0, 0, 1, 1, ([] : List JVal)⟩ : CleanState).total
        = (⟨0, 0, 0, 1, 1, ([] : List JVal)⟩ : CleanState).kept
          + (⟨0, 0, 0, 1, 1, ([] : List JVal)⟩ : CleanState).dropped_non_en
          + (⟨0, 0, 0, 1, 1, ([] : List JVal)⟩ : CleanState).dropped_numeric
          + (⟨0, 0, 0, 1, 1, ([] : List JVal)⟩ : CleanState).dropped_empty
          + countBlank [("x").data] :=
  ⟨rfl,
   (cleaner_counter_partition (fun _ => none) (fun _ => none) 200 (4 / 5) (9 / 10) (3 / 5)
     [("x").data] ⟨0, 0, 0, 1, 1, []⟩ rfl).1⟩
